import Mathlib

/-!
# Verification of the NEMOSIS bid-change / forecast-error pipeline

Shallow embedding of the tabular transformations of the analysis scripts
(`Bid_change_count.py`, `logit_diff_in_diff.py`, `logit_stacked_did.py`,
`logit_stacked_volatility.py`, `BidPerOffer.py`,
`forecast_price_noduplicate.py`, `forecast_error_plot.py`).

Numeric cell values coming out of `pd.to_numeric(..., errors="coerce")`
or of a CSV read are modelled as `Option ℚ` (`none` is NaN).  Where the
scripts can produce IEEE infinities (a nonzero float divided by zero) we
use the four-constructor type `PFloat` below.  Tables are lists of rows;
a pandas column operation becomes a list transformation.
-/

namespace Nemosis

/-- A parsed band-availability cell: `none` models NaN
(from `pd.to_numeric(errors="coerce")` or an empty CSV cell). -/
abbrev Band := Option ℚ

/-- One row of the concatenated BIDPEROFFER table after column selection:
unit id (`DUID`), bid type / market (`BIDTYPE`), interval timestamp and
the list of band-availability cells (`BANDAVAIL1..BANDAVAIL10`). -/
structure BidRec where
  duid : ℕ
  market : ℕ
  interval : ℤ
  bands : List Band
  deriving DecidableEq, Repr

/-- Column-wise `DataFrame.diff()` restricted to one row against its
predecessor: each cell is `cur - prev` when both parse, NaN otherwise
(pandas subtraction propagates NaN). -/
def diffRow (cur prev : List Band) : List Band :=
  List.zipWith
    (fun c p =>
      match c, p with
      | some c, some p => some (c - p)
      | _, _ => none)
    cur prev

/-- The diff assigned by pandas to the first row of a group: every one of
its cells is NaN. -/
def firstDiff (cur : List Band) : List Band :=
  cur.map fun _ => none

/-- `diff().abs().gt(0).any(axis=1)` — the row-wise bid-change predicate of
`logit_diff_in_diff.py` (line 93-94) and `logit_signed_did.py`:
a NaN cell compares `False` under `gt`. -/
def flagGT (d : List Band) : Bool :=
  d.any fun x =>
    match x with
    | some v => decide (0 < |v|)
    | none => false

/-- `diff().ne(0).any(axis=1)` — the row-wise bid-change predicate of
`Bid_change_count.py` (line 68-69), `logit_stacked_did.py` (96-97) and
`logit_stacked_volatility.py` (124-125): a NaN cell compares `True`
under `ne(0)`.  The scripts' trailing `.fillna(0)` acts after
`.any(axis=1)`, which never yields NaN, so it changes nothing and is
not part of the model. -/
def flagNE (d : List Band) : Bool :=
  d.any fun x => decide (x ≠ some (0 : ℚ))

/-- Bid-change flags for the tail of a group, given the predecessor of the
first listed row.  `f` is the row-wise predicate (`flagGT` or `flagNE`). -/
def flagsAux (f : List Band → Bool) (prev : BidRec) : List BidRec → List Bool
  | [] => []
  | r :: rest => f (diffRow r.bands prev.bands) :: flagsAux f r rest

/-- Bid-change flags of one `(DUID, BIDTYPE)` group sorted by interval:
`groupby([...])[avail_cols].diff()` followed by the row-wise predicate.
The first row diffs against nothing, so its diff row is all-NaN. -/
def flags (f : List Band → Bool) : List BidRec → List Bool
  | [] => []
  | r :: rest => f (firstDiff r.bands) :: flagsAux f r rest

/-- A derived panel row: key, bid-change flag and the forward label
`ATTN_t2`. -/
structure PanelRow where
  duid : ℕ
  market : ℕ
  interval : ℤ
  flag : Bool
  attn : Bool
  deriving DecidableEq, Repr

/-- The (unit, market, interval) key of a panel row. -/
def PanelRow.key (r : PanelRow) : ℕ × ℕ × ℤ := (r.duid, r.market, r.interval)

/-- The (unit, market, interval) key of a bid record. -/
def BidRec.key3 (r : BidRec) : ℕ × ℕ × ℤ := (r.duid, r.market, r.interval)

/-- Zip a group's records with their bid-change flags and forward labels:
the record at position `i` pairs with flag `i` and with the flag offered
as label (flag `i+2` below); the recursion stops when any list runs out. -/
def combine : List BidRec → List Bool → List Bool → List PanelRow
  | r :: rs, fl :: fls, a :: a2 =>
      ⟨r.duid, r.market, r.interval, fl, a⟩ :: combine rs fls a2
  | _, _, _ => []

/-- Panel construction for one (unit, market) group sorted by interval:
`Bid_change` flags, then `ATTN_t2 = groupby(...)["Bid_change"].shift(-2)`
and `dropna(subset=["ATTN_t2"])` (`logit_diff_in_diff.py` 113-117,
`logit_stacked_did.py` 99-102, `logit_stacked_volatility.py` 126-128):
row `i` is labelled with flag `i+2` and the last two rows are dropped. -/
def buildGroupPanel (f : List Band → Bool) (g : List BidRec) : List PanelRow :=
  combine g (flags f g) ((flags f g).drop 2)

/-- `sort_values` of a group by interval timestamp. -/
def sortByInterval (g : List BidRec) : List BidRec :=
  List.insertionSort (fun a b => a.interval ≤ b.interval) g

/-- The group keys of a table in order of first appearance
(`groupby(["DUID","Market"])`). -/
def groupKeys (table : List BidRec) : List (ℕ × ℕ) :=
  (table.map fun r => (r.duid, r.market)).dedup

/-- Rows of one (unit, market) group, in table order. -/
def groupRows (table : List BidRec) (k : ℕ × ℕ) : List BidRec :=
  table.filter fun r => decide ((r.duid, r.market) = k)

/-- Whole-table panel construction: sort by (unit, market, interval),
then per-group flags / `shift(-2)` / `dropna`.  The relative order of the
groups plays no role in the properties below. -/
def buildPanel (f : List Band → Bool) (table : List BidRec) : List PanelRow :=
  ((groupKeys table).map fun k =>
    buildGroupPanel f (sortByInterval (groupRows table k))).flatten

/-- `rolling(w, min_periods=1).sum()`: position `i` holds the sum of the
last `w` values up to and including position `i`. -/
def rollingSum (w : ℕ) (s : List ℚ) : List ℚ :=
  (List.range s.length).map fun i => ((s.take (i + 1)).drop (i + 1 - w)).sum

/-- `ShareE` of `logit_diff_in_diff.py` (lines 150-155) at row `i` of one
unit's revenue series: 24-hour (288-interval) rolling energy revenue over
the rolling total, with the zero-total rows overwritten by 0.5 via
`rev.loc[(Roll_E+Roll_F)==0, "ShareE"] = 0.5`. -/
def shareEAt (revE revF : List ℚ) (i : ℕ) : ℚ :=
  let a := (rollingSum 288 revE).getD i 0
  let b := (rollingSum 288 revF).getD i 0
  if a + b = 0 then 1 / 2 else a / (a + b)

/-- IEEE-style value of a pandas float cell. -/
inductive PFloat where
  | val (q : ℚ)
  | pinf
  | ninf
  | nan
  deriving DecidableEq, Repr

/-- pandas float division: a nonzero value divided by zero is a signed
infinity, `0/0` is NaN. -/
def pdDiv (a b : ℚ) : PFloat :=
  if b = 0 then
    if a = 0 then PFloat.nan else if 0 < a then PFloat.pinf else PFloat.ninf
  else PFloat.val (a / b)

/-- `fillna(0)` on one cell. -/
def pdFillna0 : PFloat → PFloat
  | .nan => .val 0
  | x => x

/-- Total 30-day rolling revenue of a unit across all its markets at row
`i` (`groupby(["DUID","INTERVAL"])["RollRev"].transform("sum")`). -/
def total30At (revs : List (List ℚ)) (i : ℕ) : ℚ :=
  (revs.map fun s => (rollingSum 8640 s).getD i 0).sum

/-- `Share30` of `logit_stacked_did.py` (lines 157-164) and
`logit_stacked_volatility.py` (159-161) for market `j` of a unit at row
`i`: 30-day (8640-interval) rolling market revenue over the rolling
total, then `.fillna(0)`. -/
def share30At (revs : List (List ℚ)) (j i : ℕ) : PFloat :=
  pdFillna0 (pdDiv ((rollingSum 8640 (revs.getD j [])).getD i 0) (total30At revs i))

/-- `Share30` as merged into the panel on `(INTERVAL, DUID, Market)`
(`logit_stacked_did.py` 166-167, `logit_stacked_volatility.py` 163): the
covariate attached at row `i` is the share computed at row `i` itself —
no lag is applied before the merge. -/
def share30Attached (revs : List (List ℚ)) (j i : ℕ) : PFloat :=
  share30At revs j i

/-- `groupby("DUID")["ShareE"].shift(1)` (`logit_diff_in_diff.py` 158):
position `i` receives the value from position `i-1`; position 0 gets
NaN. -/
def lagList (s : List ℚ) : List (Option ℚ) :=
  none :: (s.dropLast.map some)

/-- The `ShareE` series of one unit, one entry per revenue row. -/
def shareESeries (revE revF : List ℚ) : List ℚ :=
  (List.range revE.length).map (shareEAt revE revF)

/-- `ShareE_lag` as merged into the panel on `(INTERVAL, DUID)`
(`logit_diff_in_diff.py` 157-159): the covariate attached at row `i`. -/
def shareELagAt (revE revF : List ℚ) (i : ℕ) : Option ℚ :=
  (lagList (shareESeries revE revF)).getD i none

/-- Finiteness of a pandas float cell. -/
def PFloat.isFinite : PFloat → Bool
  | .val _ => true
  | _ => false

/-- `X.replace([np.inf, -np.inf], np.nan)` on one cell. -/
def replaceInfNan : PFloat → PFloat
  | .pinf => .nan
  | .ninf => .nan
  | x => x

/-- The row mask `X.replace([np.inf,-np.inf], np.nan).dropna().index`
(`logit_stacked_did.py` 225, `logit_stacked_volatility.py` 216): a row is
kept iff after replacing infinities by NaN it contains no NaN cell. -/
def finiteMask (x2 : List (List PFloat)) : List Bool :=
  x2.map fun r => !(r.map replaceInfNan).any fun c => decide (c = PFloat.nan)

/-- `X.loc[mask]`: keep the rows selected by the boolean mask. -/
def applyMask (mask : List Bool) (rows : List (List PFloat)) : List (List PFloat) :=
  ((rows.zip mask).filter fun p => p.2).map fun p => p.1

/-- pandas `abs()` on a float cell (`(price - forecast).abs()`). -/
def pdAbs : PFloat → PFloat
  | .val q => .val |q|
  | .nan => .nan
  | _ => .pinf

/-- IEEE `<=` as used by a pandas boolean row filter: any comparison
against NaN is `False`. -/
def pdLe : PFloat → PFloat → Bool
  | .nan, _ => false
  | _, .nan => false
  | .ninf, _ => true
  | .val _, .pinf => true
  | .val a, .val b => decide (a ≤ b)
  | .val _, .ninf => false
  | .pinf, .pinf => true
  | .pinf, _ => false

/-- The 99th-percentile trim of `logit_diff_in_diff.py` (167-168) on the
absolute-forecast-error column: `energy[energy["Abs_FE_E"] <= P99]`,
where the column holds absolute values. -/
def trimByP99 (vals : List PFloat) (p99 : ℚ) : List PFloat :=
  (vals.map pdAbs).filter fun v => pdLe v (PFloat.val p99)

/-- The date-filter strategy passed positionally (`args[6]`) to the
external fetch loop. -/
inductive DateFilter where
  | intervalDatetime
  | settlementDate
  | custom (n : ℕ)
  deriving DecidableEq, Repr

/-- The positional arguments of `_dynamic_data_fetch_loop` as seen by the
patch: the date filter plus everything else (opaque to the patch). -/
structure FetchArgs where
  dateFilter : DateFilter
  rest : ℕ
  deriving DecidableEq, Repr

/-- A failure of the external fetch loop: a `KeyError` carrying its
message, or any other exception. -/
inductive FetchErr where
  | keyError (msg : String)
  | other (msg : String)
  deriving DecidableEq, Repr

/-- `"INTERVAL_DATETIME" in str(e)`. -/
def mentionsIntervalKey (msg : String) : Bool :=
  decide ("INTERVAL_DATETIME".toList <:+: msg.toList)

/-- `patched_loop` of `BidPerOffer.py` (lines 20-32): call the original
loop; on a `KeyError` mentioning `INTERVAL_DATETIME`, retry exactly once
with `args[6] = filter_on_settlementdate` and return that second result
as-is; re-raise anything else. -/
def patchedLoop (orig : FetchArgs → Except FetchErr ℕ)
    (args : FetchArgs) : Except FetchErr ℕ :=
  match orig args with
  | .ok r => .ok r
  | .error e =>
      match e with
      | .keyError msg =>
          if mentionsIntervalKey msg then
            orig { args with dateFilter := DateFilter.settlementDate }
          else .error (FetchErr.keyError msg)
      | .other msg => .error (FetchErr.other msg)

/-- One forecast row: forecasted-interval timestamp (`DATETIME`, resp.
`INTERVAL_DATETIME`), region, `LASTCHANGED` and the remaining payload. -/
structure FRow where
  dt : ℤ
  region : ℕ
  lastchanged : ℤ
  payload : ℕ
  deriving DecidableEq, Repr

/-- The deduplication key `(forecasted interval, region)`. -/
def FRow.key (r : FRow) : ℤ × ℕ := (r.dt, r.region)

/-- `sort_values(["DATETIME","REGIONID","LASTCHANGED"],
ascending=[True,True,False])` as an ordering relation: lexicographic on
(interval asc, region asc, lastchanged desc). -/
def frowLe (a b : FRow) : Prop :=
  a.dt < b.dt ∨ (a.dt = b.dt ∧ (a.region < b.region ∨
    (a.region = b.region ∧ b.lastchanged ≤ a.lastchanged)))

instance : DecidableRel frowLe := fun a b => by
  unfold frowLe; infer_instance

instance : IsTotal FRow frowLe :=
  ⟨by intro a b; unfold frowLe; omega⟩

instance : IsTrans FRow frowLe :=
  ⟨by intro a b c; unfold frowLe; omega⟩

/-- `drop_duplicates(subset=["DATETIME","REGIONID"], keep="first")`:
keep the first row bearing each key. -/
def dropDupKeys : List FRow → List FRow
  | [] => []
  | r :: rest => r :: dropDupKeys (rest.filter fun s => decide (s.key ≠ r.key))
termination_by l => l.length
decreasing_by
  simpa using Nat.lt_succ_of_le (List.length_filter_le _ rest)

/-- The forecast-table deduplication of `forecast_price_noduplicate.py`
(lines 101-117): when the table has a `LASTCHANGED` column, sort and drop
duplicate (interval, region) keys keeping the first; otherwise leave the
table untouched. -/
def pdDedup (hasLastChanged : Bool) (rows : List FRow) : List FRow :=
  if hasLastChanged then dropDupKeys (List.insertionSort frowLe rows) else rows

/-- A parsed settlement timestamp is modelled as whole minutes since an
epoch (the strict parse format of `forecast_error_plot.py`,
`%m/%d/%Y %H:%M`, has minute granularity, so seconds are always zero).
`dt.hour` of such a timestamp. -/
def hourOf (t : ℕ) : ℕ := t / 60 % 24

/-- `dt.minute`. -/
def minuteOf (t : ℕ) : ℕ := t % 60

/-- The calendar day a timestamp nominally carries. -/
def dayOf (t : ℕ) : ℕ := t / 1440

/-- `(dt.hour == 0) & (dt.minute == 0)` — the midnight mask of
`forecast_error_plot.py` (line 57). -/
def isMidnightMask (t : ℕ) : Bool :=
  decide (hourOf t = 0) && decide (minuteOf t = 0)

/-- `data.loc[mask_midnight, "SETTLEMENTDATE"] -= pd.Timedelta(days=1)`
(`forecast_error_plot.py` line 58) applied to a single timestamp. -/
def shiftMidnight (t : ℕ) : ℕ :=
  if isMidnightMask t then t - 1440 else t

end Nemosis

namespace Nemosis

theorem flagsAux_length (f : List Band → Bool) (p : BidRec) (l : List BidRec) :
    (flagsAux f p l).length = l.length := by
  induction l generalizing p with
  | nil => rfl
  | cons r rest ih => simp [flagsAux, ih]

theorem flags_length (f : List Band → Bool) (g : List BidRec) :
    (flags f g).length = g.length := by
  cases g with
  | nil => rfl
  | cons r rest => simp [flags, flagsAux_length]

theorem flagsAux_get? (f : List Band → Bool) (p : BidRec) (l : List BidRec) (i : ℕ) :
    (flagsAux f p l).get? i =
      ((p :: l).get? i).bind fun pr =>
        (l.get? i).map fun c => f (diffRow c.bands pr.bands) := by
  induction l generalizing p i with
  | nil => cases i <;> rfl
  | cons c rest ih =>
      cases i with
      | zero => rfl
      | succ i => simpa [flagsAux] using ih c i

/-- Index form of the group flags: for a non-first row `i+1`, the flag is
the row-wise predicate applied to the diff against row `i`. -/
theorem flags_get?_succ (f : List Band → Bool) (g : List BidRec) (i : ℕ) :
    (flags f g).get? (i + 1) =
      (g.get? i).bind fun pr =>
        (g.get? (i + 1)).map fun c => f (diffRow c.bands pr.bands) := by
  cases g with
  | nil => rfl
  | cons r rest => simpa [flags] using flagsAux_get? f r rest i

theorem flags_get?_zero (f : List Band → Bool) (g : List BidRec) :
    (flags f g).get? 0 = (g.get? 0).map fun r => f (firstDiff r.bands) := by
  cases g <;> rfl

end Nemosis

namespace Nemosis

theorem abs_pos_iff_ne (a b : ℚ) : (0 < |a - b|) ↔ a ≠ b := by
  rw [abs_pos, sub_ne_zero]

/-- On rows whose cells all parsed, the `gt(0)`-style predicate detects
exactly a difference in some band column. -/
theorem flagGT_diffRow_iff (c p : List Band) (hlen : c.length = p.length)
    (hc : ∀ x ∈ c, x ≠ none) (hp : ∀ x ∈ p, x ≠ none) :
    flagGT (diffRow c p) = true ↔ ∃ j, j < c.length ∧ c.get? j ≠ p.get? j := by
  induction c generalizing p with
  | nil =>
      cases p with
      | nil => simp [flagGT, diffRow]
      | cons b p' => simp at hlen
  | cons a c' ih =>
      cases p with
      | nil => simp at hlen
      | cons b p' =>
          obtain ⟨va, rfl⟩ : ∃ v, a = some v := by
            cases a with
            | none => exact absurd rfl (hc none (by simp))
            | some v => exact ⟨v, rfl⟩
          obtain ⟨vb, rfl⟩ : ∃ v, b = some v := by
            cases b with
            | none => exact absurd rfl (hp none (by simp))
            | some v => exact ⟨v, rfl⟩
          have hrec := ih p' (by simpa using hlen)
            (fun x hx => hc x (by simp [hx]))
            (fun x hx => hp x (by simp [hx]))
          constructor
          · intro h
            rcases (by simpa [flagGT, diffRow] using h :
                (0 < |va - vb|) ∨ flagGT (diffRow c' p') = true) with h1 | h1
            · exact ⟨0, by simp, by simpa using (abs_pos_iff_ne va vb).mp h1⟩
            · obtain ⟨j, hj, hne⟩ := hrec.mp h1
              exact ⟨j + 1, by simpa using Nat.succ_lt_succ hj, by simpa using hne⟩
          · rintro ⟨j, hj, hne⟩
            have huf : flagGT (diffRow (some va :: c') (some vb :: p')) =
                (decide (0 < |va - vb|) || flagGT (diffRow c' p')) := rfl
            cases j with
            | zero =>
                have hne' : va ≠ vb := by simpa using hne
                have h0 : (0 < |va - vb|) := (abs_pos_iff_ne va vb).mpr hne'
                rw [huf]
                simp [h0]
            | succ j =>
                have hj' : j < c'.length := by simp at hj; omega
                have hne' : c'.get? j ≠ p'.get? j := by simpa using hne
                have ht := hrec.mpr ⟨j, hj', hne'⟩
                rw [huf, ht]
                simp

end Nemosis

namespace Nemosis

/-- On rows whose cells all parsed, the `ne(0)`-style predicate also
detects exactly a difference in some band column. -/
theorem flagNE_diffRow_iff (c p : List Band) (hlen : c.length = p.length)
    (hc : ∀ x ∈ c, x ≠ none) (hp : ∀ x ∈ p, x ≠ none) :
    flagNE (diffRow c p) = true ↔ ∃ j, j < c.length ∧ c.get? j ≠ p.get? j := by
  induction c generalizing p with
  | nil =>
      cases p with
      | nil => simp [flagNE, diffRow]
      | cons b p' => simp at hlen
  | cons a c' ih =>
      cases p with
      | nil => simp at hlen
      | cons b p' =>
          obtain ⟨va, rfl⟩ : ∃ v, a = some v := by
            cases a with
            | none => exact absurd rfl (hc none (by simp))
            | some v => exact ⟨v, rfl⟩
          obtain ⟨vb, rfl⟩ : ∃ v, b = some v := by
            cases b with
            | none => exact absurd rfl (hp none (by simp))
            | some v => exact ⟨v, rfl⟩
          have hrec := ih p' (by simpa using hlen)
            (fun x hx => hc x (by simp [hx]))
            (fun x hx => hp x (by simp [hx]))
          have huf : flagNE (diffRow (some va :: c') (some vb :: p')) =
              (decide ((some (va - vb) : Band) ≠ some (0 : ℚ)) ||
                flagNE (diffRow c' p')) := rfl
          constructor
          · intro h
            rw [huf] at h
            rcases (by simpa using h :
                va - vb ≠ 0 ∨ flagNE (diffRow c' p') = true) with h1 | h1
            · exact ⟨0, by simp, by simpa using sub_ne_zero.mp h1⟩
            · obtain ⟨j, hj, hne⟩ := hrec.mp h1
              exact ⟨j + 1, by simpa using Nat.succ_lt_succ hj, by simpa using hne⟩
          · rintro ⟨j, hj, hne⟩
            cases j with
            | zero =>
                have hne' : va ≠ vb := by simpa using hne
                rw [huf]
                simp [sub_ne_zero.mpr hne']
            | succ j =>
                have hj' : j < c'.length := by simp at hj; omega
                have hne' : c'.get? j ≠ p'.get? j := by simpa using hne
                have ht := hrec.mpr ⟨j, hj', hne'⟩
                rw [huf, ht]
                simp

end Nemosis

namespace Nemosis

theorem combine_get? (g : List BidRec) (fl a2 : List Bool) (i : ℕ) :
    (combine g fl a2).get? i =
      (g.get? i).bind fun r => (fl.get? i).bind fun x =>
        (a2.get? i).map fun a => ⟨r.duid, r.market, r.interval, x, a⟩ := by
  induction g generalizing fl a2 i with
  | nil => cases fl <;> cases a2 <;> cases i <;> rfl
  | cons r rs ih =>
      cases fl with
      | nil =>
          have hL : combine (r :: rs) [] a2 = [] := by cases a2 <;> rfl
          rw [hL]
          cases h : (r :: rs).get? i <;> simp [h]
      | cons x fls =>
          cases a2 with
          | nil =>
              rw [show combine (r :: rs) (x :: fls) [] = [] from rfl]
              cases h : (r :: rs).get? i <;>
                cases h2 : (x :: fls).get? i <;> simp [h, h2]
          | cons a arest =>
              cases i with
              | zero => rfl
              | succ i => simpa [combine] using ih fls arest i

theorem combine_length (g : List BidRec) (fl a2 : List Bool) :
    (combine g fl a2).length = min g.length (min fl.length a2.length) := by
  induction g generalizing fl a2 with
  | nil => cases fl <;> cases a2 <;> simp [combine]
  | cons r rs ih =>
      cases fl with
      | nil => simp [combine]
      | cons x fls =>
          cases a2 with
          | nil => simp [combine]
          | cons a arest => simp [combine, ih fls arest]; omega

theorem drop_get? {α : Type} (l : List α) (n i : ℕ) :
    (l.drop n).get? i = l.get? (n + i) := by
  induction l generalizing n i with
  | nil => cases n <;> rfl
  | cons x xs ih =>
      cases n with
      | zero => simp
      | succ n =>
          have e : n + 1 + i = (n + i) + 1 := by omega
          rw [List.drop_succ_cons, ih n i, e]
          rfl

/-- **C1.** For every (unit, market) group of bid records sorted by
interval and every record except the first in its group (row `i+1` with
predecessor row `i`), when every band cell of the two rows parsed
numerically and the rows carry equally many band columns, the computed
bid-change flag — in both the `gt(0)` variant (`logit_diff_in_diff.py`)
and the `ne(0)` variant (`Bid_change_count.py`, stacked scripts) — is
`true` iff at least one band-availability value differs numerically from
the corresponding value of the immediately preceding record. -/
theorem C1_bid_change_iff_band_differs (g : List BidRec) (i : ℕ)
    (prev cur : BidRec)
    (hprev : g.get? i = some prev) (hcur : g.get? (i + 1) = some cur)
    (hlen : cur.bands.length = prev.bands.length)
    (hc : ∀ x ∈ cur.bands, x ≠ none) (hp : ∀ x ∈ prev.bands, x ≠ none) :
    ((flags flagGT g).get? (i + 1) = some true ↔
      ∃ j, j < cur.bands.length ∧ cur.bands.get? j ≠ prev.bands.get? j) ∧
    ((flags flagNE g).get? (i + 1) = some true ↔
      ∃ j, j < cur.bands.length ∧ cur.bands.get? j ≠ prev.bands.get? j) := by
  have e1 : (flags flagGT g).get? (i + 1) =
      some (flagGT (diffRow cur.bands prev.bands)) := by
    rw [flags_get?_succ, hprev, hcur]; rfl
  have e2 : (flags flagNE g).get? (i + 1) =
      some (flagNE (diffRow cur.bands prev.bands)) := by
    rw [flags_get?_succ, hprev, hcur]; rfl
  constructor
  · have : ((flags flagGT g).get? (i + 1) = some true) ↔
        flagGT (diffRow cur.bands prev.bands) = true := by
      rw [e1]; exact ⟨fun h => Option.some.inj h, fun h => by rw [h]⟩
    exact this.trans (flagGT_diffRow_iff _ _ hlen hc hp)
  · have : ((flags flagNE g).get? (i + 1) = some true) ↔
        flagNE (diffRow cur.bands prev.bands) = true := by
      rw [e2]; exact ⟨fun h => Option.some.inj h, fun h => by rw [h]⟩
    exact this.trans (flagNE_diffRow_iff _ _ hlen hc hp)

/-- Witness for C1 at a concrete two-record group with ten bands in which
exactly the first band changed. -/
theorem C1_bid_change_iff_band_differs_witness :
    (flags flagGT [⟨0, 0, 0, List.replicate 10 (some 5)⟩,
        ⟨0, 0, 1, some 6 :: List.replicate 9 (some 5)⟩]).get? 1 = some true ∧
    (flags flagNE [⟨0, 0, 0, List.replicate 10 (some 5)⟩,
        ⟨0, 0, 1, some 6 :: List.replicate 9 (some 5)⟩]).get? 1 = some true := by
  obtain ⟨h1, h2⟩ := C1_bid_change_iff_band_differs
    [⟨0, 0, 0, List.replicate 10 (some 5)⟩,
     ⟨0, 0, 1, some 6 :: List.replicate 9 (some 5)⟩] 0
    ⟨0, 0, 0, List.replicate 10 (some 5)⟩
    ⟨0, 0, 1, some 6 :: List.replicate 9 (some 5)⟩
    rfl rfl (by decide) (by decide) (by decide)
  exact ⟨h1.mpr ⟨0, by decide, by decide⟩, h2.mpr ⟨0, by decide, by decide⟩⟩

/-- **C2.** For a (unit, market) group sorted by interval, the assembled
panel has exactly `length - 2` rows, and row `i` of the panel carries the
identity of group row `i`, its bid-change flag, and as forward label
`ATTN_t2` the bid-change flag of the row exactly two positions later;
a panel row exists at `i` precisely when the group has a row at `i+2`
(rows lacking a two-ahead successor are dropped by
`dropna(subset=["ATTN_t2"])`). -/
theorem C2_forward_label_two_ahead (f : List Band → Bool) (g : List BidRec) :
    (buildGroupPanel f g).length = g.length - 2 ∧
    ∀ i : ℕ, (buildGroupPanel f g).get? i =
      (g.get? i).bind fun r => ((flags f g).get? i).bind fun x =>
        ((flags f g).get? (i + 2)).map fun a =>
          ⟨r.duid, r.market, r.interval, x, a⟩ := by
  constructor
  · rw [buildGroupPanel, combine_length, flags_length,
      List.length_drop, flags_length]
    omega
  · intro i
    rw [buildGroupPanel, combine_get?, drop_get?]
    rw [Nat.add_comm 2 i]

end Nemosis

namespace Nemosis

/-- **C3 (code evaluation at the failing input).** On a group of two
identical ten-band records, the `ne(0)` detector variant
(`Bid_change_count.py` 68-69, `logit_stacked_did.py` 96-97,
`logit_stacked_volatility.py` 124-125) flags the FIRST record of the
group as a bid change — its all-NaN diff row satisfies `diff.ne(0)` and
the trailing `.fillna(0)` is a no-op after `.any(axis=1)` — while the
`gt(0)` variant (`logit_diff_in_diff.py` 93-94) treats the null diff as
"no change", as the claim states for every variant. -/
theorem C3_first_record_flag_eval :
    flags flagNE [⟨0, 0, 0, List.replicate 10 (some 5)⟩,
        ⟨0, 0, 1, List.replicate 10 (some 5)⟩] = [true, false] ∧
    flags flagGT [⟨0, 0, 0, List.replicate 10 (some 5)⟩,
        ⟨0, 0, 1, List.replicate 10 (some 5)⟩] = [false, false] := by
  constructor
  · norm_num [flags, flagsAux, flagNE, diffRow, firstDiff, List.replicate]
    decide
  · norm_num [flags, flagsAux, flagGT, diffRow, firstDiff, List.replicate]

theorem rollingSum_getD_nonneg (w : ℕ) (s : List ℚ) (i : ℕ)
    (hs : ∀ x ∈ s, 0 ≤ x) : 0 ≤ (rollingSum w s).getD i 0 := by
  by_cases hi : i < s.length
  · have hget : (rollingSum w s).getD i 0 =
        ((s.take (i + 1)).drop (i + 1 - w)).sum := by
      rw [rollingSum, List.getD_eq_getElem?_getD]
      rw [List.getElem?_map, List.getElem?_range hi]
      rfl
    rw [hget]
    refine List.sum_nonneg fun x hx => hs x ?_
    exact List.mem_of_mem_take (List.mem_of_mem_drop hx)
  · rw [List.getD_eq_default]
    · rw [rollingSum, List.length_map, List.length_range]
      omega

theorem total30At_nonneg (revs : List (List ℚ)) (i : ℕ)
    (h : ∀ s ∈ revs, ∀ x ∈ s, 0 ≤ x) : 0 ≤ total30At revs i := by
  refine List.sum_nonneg fun x hx => ?_
  obtain ⟨s, hs, rfl⟩ := List.mem_map.mp hx
  exact rollingSum_getD_nonneg 8640 s i (h s hs)

theorem roll_le_total30 (revs : List (List ℚ)) (j i : ℕ)
    (h : ∀ s ∈ revs, ∀ x ∈ s, 0 ≤ x) :
    (rollingSum 8640 (revs.getD j [])).getD i 0 ≤ total30At revs i := by
  by_cases hj : j < revs.length
  · have hmem : (rollingSum 8640 (revs.getD j [])).getD i 0 ∈
        revs.map fun s => (rollingSum 8640 s).getD i 0 := by
      refine List.mem_map.mpr ⟨revs.getD j [], ?_, rfl⟩
      rw [List.getD_eq_getElem?_getD, List.getElem?_eq_getElem hj]
      exact List.getElem_mem hj
    refine List.single_le_sum ?_ _ hmem
    intro x hx
    obtain ⟨s, hs, rfl⟩ := List.mem_map.mp hx
    exact rollingSum_getD_nonneg 8640 s i (h s hs)
  · have hrev : revs.getD j [] = [] := List.getD_eq_default _ _ (by omega)
    have hz : (rollingSum 8640 (revs.getD j [])).getD i 0 = 0 := by
      rw [hrev]; simp [rollingSum]
    rw [hz]
    exact total30At_nonneg revs i h

end Nemosis

namespace Nemosis

/-- **C4 (counterexample).** Revenue is price times volume and prices can
be negative, so window revenues can be negative.  With energy revenue 2
and FCAS revenue −1 on a single interval, the 24-hour `ShareE` is 2 — the
rolling total is nonzero yet the share exceeds 1.  And in the 30-day
variant, total 0 with market revenue 1 (second market −1) gives `+inf`
(`1/0` escapes the `.fillna(0)`), not the fallback 0. -/
theorem C4_share_range_counterexample :
    shareEAt [(2 : ℚ)] [(-1 : ℚ)] 0 = 2 ∧
    (rollingSum 288 [(2 : ℚ)]).getD 0 0 +
      (rollingSum 288 [(-1 : ℚ)]).getD 0 0 ≠ 0 ∧
    ¬ shareEAt [(2 : ℚ)] [(-1 : ℚ)] 0 ≤ 1 ∧
    share30At [[(1 : ℚ)], [(-1 : ℚ)]] 0 0 = PFloat.pinf ∧
    total30At [[(1 : ℚ)], [(-1 : ℚ)]] 0 = 0 ∧
    PFloat.pinf ≠ PFloat.val 0 ∧ PFloat.pinf ≠ PFloat.val (1 / 2) := by
  refine ⟨?_, ?_, ?_, ?_, ?_, by decide, by decide⟩
  · norm_num [shareEAt, rollingSum]
  · norm_num [rollingSum]
  · norm_num [shareEAt, rollingSum]
  · norm_num [share30At, rollingSum, total30At, pdDiv, pdFillna0]
  · norm_num [total30At, rollingSum]

/-- **C4 (amended).** When every per-interval revenue of the unit is
nonnegative, the rolling revenue share lies in [0, 1]; and when the
rolling total over the window is zero, the share equals exactly the
configured fallback — 0.5 in the 24-hour `ShareE` variant and 0 in the
30-day `Share30` variant. -/
theorem C4_share_bounds_amended (revE revF : List ℚ) (revs : List (List ℚ))
    (i j : ℕ)
    (hE : ∀ x ∈ revE, 0 ≤ x) (hF : ∀ x ∈ revF, 0 ≤ x)
    (hR : ∀ s ∈ revs, ∀ x ∈ s, 0 ≤ x) :
    (0 ≤ shareEAt revE revF i ∧ shareEAt revE revF i ≤ 1) ∧
    ((rollingSum 288 revE).getD i 0 + (rollingSum 288 revF).getD i 0 = 0 →
      shareEAt revE revF i = 1 / 2) ∧
    (∃ q, share30At revs j i = PFloat.val q ∧ 0 ≤ q ∧ q ≤ 1) ∧
    (total30At revs i = 0 → share30At revs j i = PFloat.val 0) := by
  have ha : 0 ≤ (rollingSum 288 revE).getD i 0 :=
    rollingSum_getD_nonneg 288 revE i hE
  have hb : 0 ≤ (rollingSum 288 revF).getD i 0 :=
    rollingSum_getD_nonneg 288 revF i hF
  have hr : 0 ≤ (rollingSum 8640 (revs.getD j [])).getD i 0 := by
    refine rollingSum_getD_nonneg 8640 _ i ?_
    intro x hx
    by_cases hj : j < revs.length
    · refine hR _ ?_ x hx
      rw [List.getD_eq_getElem?_getD, List.getElem?_eq_getElem hj]
      exact List.getElem_mem hj
    · rw [List.getD_eq_default _ _ (by omega)] at hx
      simp at hx
  have ht : 0 ≤ total30At revs i := total30At_nonneg revs i hR
  have hrt : (rollingSum 8640 (revs.getD j [])).getD i 0 ≤ total30At revs i :=
    roll_le_total30 revs j i hR
  refine ⟨?_, ?_, ?_, ?_⟩
  · rw [shareEAt]
    by_cases h0 : (rollingSum 288 revE).getD i 0 +
        (rollingSum 288 revF).getD i 0 = 0
    · simp only [h0, if_pos rfl]
      norm_num
    · simp only [if_neg h0]
      have hpos : 0 < (rollingSum 288 revE).getD i 0 +
          (rollingSum 288 revF).getD i 0 := by
        rcases lt_or_eq_of_le (by linarith : (0:ℚ) ≤
          (rollingSum 288 revE).getD i 0 + (rollingSum 288 revF).getD i 0)
          with h | h
        · exact h
        · exact absurd h.symm h0
      constructor
      · exact div_nonneg ha (le_of_lt hpos)
      · rw [div_le_one hpos]
        linarith
  · intro h0
    rw [shareEAt]
    simp only [h0]
    norm_num
  · rw [share30At, pdDiv]
    by_cases h0 : total30At revs i = 0
    · have hr0 : (rollingSum 8640 (revs.getD j [])).getD i 0 = 0 := by
        rw [h0] at hrt; linarith
      rw [if_pos h0, if_pos hr0]
      exact ⟨0, rfl, le_refl 0, by norm_num⟩
    · rw [if_neg h0]
      have hpos : 0 < total30At revs i := lt_of_le_of_ne ht (Ne.symm h0)
      refine ⟨_, rfl, div_nonneg hr (le_of_lt hpos), ?_⟩
      rw [div_le_one hpos]
      exact hrt
  · intro h0
    rw [share30At, pdDiv]
    have hr0 : (rollingSum 8640 (revs.getD j [])).getD i 0 = 0 := by
      rw [h0] at hrt; linarith
    rw [if_pos h0, if_pos hr0]
    rfl

/-- Witness for C4 (amended) at nonnegative concrete revenues. -/
theorem C4_share_bounds_amended_witness :
    ((0 ≤ shareEAt [(1 : ℚ), 0] [(1 : ℚ), 3] 0 ∧
        shareEAt [(1 : ℚ), 0] [(1 : ℚ), 3] 0 ≤ 1) ∧
      ((rollingSum 288 [(1 : ℚ), 0]).getD 0 0 +
          (rollingSum 288 [(1 : ℚ), 3]).getD 0 0 = 0 →
        shareEAt [(1 : ℚ), 0] [(1 : ℚ), 3] 0 = 1 / 2) ∧
      (∃ q, share30At [[(1 : ℚ)], [(3 : ℚ)]] 0 0 = PFloat.val q ∧
        0 ≤ q ∧ q ≤ 1) ∧
      (total30At [[(1 : ℚ)], [(3 : ℚ)]] 0 = 0 →
        share30At [[(1 : ℚ)], [(3 : ℚ)]] 0 0 = PFloat.val 0)) :=
  C4_share_bounds_amended [(1 : ℚ), 0] [(1 : ℚ), 3] [[(1 : ℚ)], [(3 : ℚ)]] 0 0
    (by intro x hx; rcases List.mem_cons.mp hx with rfl | hx' <;> norm_num
        rcases List.mem_cons.mp hx' with rfl | hx'' <;> norm_num
        simp at hx'')
    (by intro x hx; rcases List.mem_cons.mp hx with rfl | hx' <;> norm_num
        rcases List.mem_cons.mp hx' with rfl | hx'' <;> norm_num
        simp at hx'')
    (by intro s hs x hx
        rcases List.mem_cons.mp hs with rfl | hs'
        · rcases List.mem_cons.mp hx with rfl | hx' <;> norm_num
          simp at hx'
        · rcases List.mem_cons.mp hs' with rfl | hs''
          · rcases List.mem_cons.mp hx with rfl | hx' <;> norm_num
            simp at hx'
          · simp at hs'')

end Nemosis

namespace Nemosis

/-- **C5 (counterexample).** In the 30-day stacked variants the share is
merged without a lag: with market revenues `[1,0]` and `[0,1]`, the
covariate attached at row 1 is the share computed at row 1 itself, 1/2
(its window already contains row 1's revenue), and not the share
computed at row 0, which is 1. -/
theorem C5_no_lag_in_stacked_counterexample :
    share30Attached [[(1 : ℚ), 0], [(0 : ℚ), 1]] 0 1 = PFloat.val (1 / 2) ∧
    share30At [[(1 : ℚ), 0], [(0 : ℚ), 1]] 0 0 = PFloat.val 1 ∧
    PFloat.val ((1 : ℚ) / 2) ≠ PFloat.val 1 := by
  refine ⟨?_, ?_, by norm_num⟩
  · norm_num [share30Attached, share30At, rollingSum, total30At, pdDiv,
      pdFillna0, List.range_succ]
  · norm_num [share30At, rollingSum, total30At, pdDiv, pdFillna0,
      List.range_succ]

/-- **C5 (amended).** Only the 24-hour variant lags the share before
attaching it: the `ShareE_lag` covariate attached at row `i+1` of a
unit's series equals the `ShareE` computed at row `i`, and row 0
receives NaN; the 30-day stacked variants attach at row `i` the share
computed at row `i` itself (no lag). -/
theorem C5_share_lag_amended (revE revF : List ℚ) (revs : List (List ℚ))
    (i j : ℕ) (hi : i + 1 < revE.length) :
    shareELagAt revE revF (i + 1) = some (shareEAt revE revF i) ∧
    shareELagAt revE revF 0 = none ∧
    share30Attached revs j i = share30At revs j i := by
  refine ⟨?_, rfl, rfl⟩
  have hlen : (shareESeries revE revF).length = revE.length := by
    simp [shareESeries]
  have h1 : i < (shareESeries revE revF).dropLast.length := by
    rw [List.length_dropLast, hlen]; omega
  rw [show shareELagAt revE revF (i + 1) =
      ((shareESeries revE revF).dropLast.map some).getD i none from rfl]
  rw [List.getD_eq_getElem?_getD, List.getElem?_map,
    List.getElem?_eq_getElem h1]
  simp [List.getElem_dropLast, shareESeries]

/-- Witness for C5 (amended) at concrete revenue series. -/
theorem C5_share_lag_amended_witness :
    shareELagAt [(1 : ℚ), 2] [(0 : ℚ), 0] 1 =
      some (shareEAt [(1 : ℚ), 2] [(0 : ℚ), 0] 0) ∧
    shareELagAt [(1 : ℚ), 2] [(0 : ℚ), 0] 0 = none ∧
    share30Attached [[(5 : ℚ)]] 0 0 = share30At [[(5 : ℚ)]] 0 0 :=
  C5_share_lag_amended [(1 : ℚ), 2] [(0 : ℚ), 0] [[(5 : ℚ)]] 0 0 (by norm_num)

end Nemosis

namespace Nemosis

/-- The keys of a group's panel rows are the keys of the first
`length - 2` records of the sorted group. -/
theorem buildGroupPanel_map_key (f : List Band → Bool) (g : List BidRec) :
    (buildGroupPanel f g).map PanelRow.key =
      (g.take (g.length - 2)).map BidRec.key3 := by
  apply List.ext_get?
  intro n
  rw [List.get?_map, List.get?_map]
  rw [buildGroupPanel, combine_get?, drop_get?]
  by_cases hn : n < g.length - 2
  · have hng : n < g.length := by omega
    have hfl : n < (flags f g).length := by rw [flags_length]; omega
    have hfl2 : 2 + n < (flags f g).length := by rw [flags_length]; omega
    obtain ⟨r, hr⟩ : ∃ r, g.get? n = some r := ⟨_, List.get?_eq_get hng⟩
    obtain ⟨x, hx⟩ : ∃ x, (flags f g).get? n = some x :=
      ⟨_, List.get?_eq_get hfl⟩
    obtain ⟨a, ha2⟩ : ∃ a, (flags f g).get? (2 + n) = some a :=
      ⟨_, List.get?_eq_get hfl2⟩
    rw [hr, hx, ha2, List.get?_take hn, hr]
    rfl
  · have hr2 : (g.take (g.length - 2)).get? n = none := by
      rw [List.get?_eq_none]
      exact le_trans (List.length_take_le _ _) (by omega)
    rw [hr2]
    by_cases hng : n < g.length
    · have hnone : (flags f g).get? (2 + n) = none := by
        rw [List.get?_eq_none, flags_length]; omega
      obtain ⟨r, hr⟩ : ∃ r, g.get? n = some r := ⟨_, List.get?_eq_get hng⟩
      have hfl : n < (flags f g).length := by rw [flags_length]; omega
      obtain ⟨x, hx⟩ : ∃ x, (flags f g).get? n = some x :=
        ⟨_, List.get?_eq_get hfl⟩
      rw [hr, hx, hnone]
      rfl
    · have hgn : g.get? n = none := List.get?_eq_none.mpr (by omega)
      rw [hgn]
      rfl

theorem mem_sorted_group_key (table : List BidRec) (k : ℕ × ℕ) (r : BidRec)
    (hr : r ∈ sortByInterval (groupRows table k)) :
    (r.duid, r.market) = k := by
  have h1 : r ∈ groupRows table k :=
    (List.Perm.mem_iff (List.perm_insertionSort _ _)).mp hr
  rw [groupRows] at h1
  exact of_decide_eq_true (List.mem_filter.mp h1).2

theorem sorted_group_key3_nodup (table : List BidRec) (k : ℕ × ℕ)
    (h : (table.map BidRec.key3).Nodup) :
    ((sortByInterval (groupRows table k)).map BidRec.key3).Nodup := by
  have h1 : ((groupRows table k).map BidRec.key3).Nodup :=
    ((List.filter_sublist table).map BidRec.key3).nodup h
  exact (List.Perm.nodup_iff
    ((List.perm_insertionSort _ _).map BidRec.key3)).mpr h1

theorem key_mem_group_panel (f : List Band → Bool) (table : List BidRec)
    (k : ℕ × ℕ) (x : ℕ × ℕ × ℤ)
    (hx : x ∈ (buildGroupPanel f (sortByInterval (groupRows table k))).map
      PanelRow.key) :
    (x.1, x.2.1) = k := by
  rw [buildGroupPanel_map_key] at hx
  obtain ⟨r, hr, rfl⟩ := List.mem_map.mp hx
  have hrmem : r ∈ sortByInterval (groupRows table k) :=
    List.mem_of_mem_take hr
  simpa [BidRec.key3] using mem_sorted_group_key table k r hrmem

/-- **C6 (amended).** If the input bid table contains no duplicate
(unit, market, interval) record, then every pair of distinct rows of the
assembled panel has distinct (unit, market, interval) key triples. -/
theorem C6_panel_unique_keys_amended (f : List Band → Bool)
    (table : List BidRec) (h : (table.map BidRec.key3).Nodup) :
    ((buildPanel f table).map PanelRow.key).Nodup := by
  rw [buildPanel, List.map_flatten, List.map_map]
  rw [List.nodup_flatten]
  constructor
  · intro l hl
    obtain ⟨k, hk, rfl⟩ := List.mem_map.mp hl
    simp only [Function.comp_apply]
    rw [buildGroupPanel_map_key, List.map_take]
    exact (List.take_sublist _ _).nodup (sorted_group_key3_nodup table k h)
  · rw [List.pairwise_map]
    have hnd : (groupKeys table).Nodup := List.nodup_dedup _
    refine hnd.imp ?_
    intro a b hab
    simp only [Function.comp_apply]
    intro x hxa hxb
    exact hab (((key_mem_group_panel f table a x hxa).symm).trans
      (key_mem_group_panel f table b x hxb))

/-- **C6 (counterexample).** A table holding two bid records with the
same (unit, market, interval) — nothing in the scripts deduplicates them
— yields a panel with two rows carrying the same key triple. -/
theorem C6_unique_key_counterexample :
    ¬ (((buildPanel flagNE
        [⟨0, 0, 0, []⟩, ⟨0, 0, 0, []⟩, ⟨0, 0, 1, []⟩, ⟨0, 0, 2, []⟩]).map
          PanelRow.key).Nodup) := by
  decide

/-- Witness for C6 (amended) at a concrete duplicate-free table. -/
theorem C6_panel_unique_keys_amended_witness :
    ((buildPanel flagNE
      [⟨0, 0, 0, []⟩, ⟨0, 0, 1, []⟩, ⟨0, 0, 2, []⟩, ⟨1, 0, 0, []⟩]).map
        PanelRow.key).Nodup :=
  C6_panel_unique_keys_amended flagNE
    [⟨0, 0, 0, []⟩, ⟨0, 0, 1, []⟩, ⟨0, 0, 2, []⟩, ⟨1, 0, 0, []⟩] (by decide)

end Nemosis

namespace Nemosis

theorem row_finite_eq (r : List PFloat) :
    (!(r.map replaceInfNan).any fun c => decide (c = PFloat.nan)) =
      r.all PFloat.isFinite := by
  induction r with
  | nil => rfl
  | cons c cs ih =>
      cases c <;> simp [replaceInfNan, PFloat.isFinite, ← ih]

theorem applyMask_cons (b : Bool) (mask : List Bool) (r : List PFloat)
    (rows : List (List PFloat)) :
    applyMask (b :: mask) (r :: rows) =
      if b then r :: applyMask mask rows else applyMask mask rows := by
  cases b <;> simp [applyMask]

theorem applyMask_finiteMask (x2 : List (List PFloat)) :
    applyMask (finiteMask x2) x2 =
      x2.filter fun r => r.all PFloat.isFinite := by
  induction x2 with
  | nil => rfl
  | cons r rs ih =>
      have hm : finiteMask (r :: rs) =
          (r.all PFloat.isFinite) :: finiteMask rs := by
        rw [show finiteMask (r :: rs) =
          (!(r.map replaceInfNan).any fun c => decide (c = PFloat.nan)) ::
            finiteMask rs from rfl, row_finite_eq]
      rw [hm, applyMask_cons, List.filter_cons]
      cases h : r.all PFloat.isFinite <;> simp [h, ih]

/-- **C7.** The pre-fit mask of the stacked scripts
(`X.replace([inf,-inf], nan).dropna().index` followed by `X.loc[mask]`)
keeps exactly the rows whose cells are all finite, so the fitted design
matrix contains only finite entries; the operation is a total
transformation (no exception path).  In the 24-hour script the only
column that can go non-finite is the absolute forecast error, and its
percentile trim `energy[energy["Abs_FE_E"] <= P99]` likewise leaves only
finite cells, because a NaN comparison is `False` and an absolute value
is never `-inf`. -/
theorem C7_nonfinite_rows_dropped (x2 : List (List PFloat))
    (vals : List PFloat) (p99 : ℚ) :
    applyMask (finiteMask x2) x2 =
      (x2.filter fun r => r.all PFloat.isFinite) ∧
    ((applyMask (finiteMask x2) x2).all fun r =>
      r.all PFloat.isFinite) = true ∧
    (trimByP99 vals p99).all PFloat.isFinite = true := by
  refine ⟨applyMask_finiteMask x2, ?_, ?_⟩
  · rw [applyMask_finiteMask, List.all_eq_true]
    intro r hr
    exact (List.mem_filter.mp hr).2
  · rw [List.all_eq_true]
    intro v hv
    rw [trimByP99] at hv
    have hv' := List.mem_filter.mp hv
    obtain ⟨u, hu, rfl⟩ := List.mem_map.mp hv'.1
    have hle := hv'.2
    cases u with
    | val q => rfl
    | pinf => simp [pdAbs, pdLe] at hle
    | ninf => simp [pdAbs, pdLe] at hle
    | nan => simp [pdAbs, pdLe] at hle

/-- **C8.** `patched_loop` of `BidPerOffer.py`: a successful fetch is
returned unchanged; a `KeyError` whose message mentions
`INTERVAL_DATETIME` triggers exactly one retry with the
settlement-date filter in the date-filter position, whose result —
success or failure — is returned as-is with no further retry; a
`KeyError` not mentioning that key, and any other exception, are
re-raised unchanged. -/
theorem C8_retry_once_on_interval_keyerror
    (orig : FetchArgs → Except FetchErr ℕ) (args : FetchArgs) :
    (∀ r, orig args = Except.ok r → patchedLoop orig args = Except.ok r) ∧
    (∀ msg, orig args = Except.error (FetchErr.keyError msg) →
      mentionsIntervalKey msg = true →
      patchedLoop orig args =
        orig { args with dateFilter := DateFilter.settlementDate }) ∧
    (∀ msg, orig args = Except.error (FetchErr.keyError msg) →
      mentionsIntervalKey msg = false →
      patchedLoop orig args = Except.error (FetchErr.keyError msg)) ∧
    (∀ msg, orig args = Except.error (FetchErr.other msg) →
      patchedLoop orig args = Except.error (FetchErr.other msg)) := by
  refine ⟨?_, ?_, ?_, ?_⟩
  · intro r h
    rw [patchedLoop, h]
  · intro msg h hm
    rw [patchedLoop, h]
    simp [hm]
  · intro msg h hm
    rw [patchedLoop, h]
    simp [hm]
  · intro msg h
    rw [patchedLoop, h]

/-- Witness for C8: a fetch source that raises the interval-datetime
`KeyError` on the original filter and succeeds on the settlement-date
filter is retried once and yields the retry's result. -/
theorem C8_retry_once_on_interval_keyerror_witness :
    patchedLoop
      (fun a =>
        match a.dateFilter with
        | DateFilter.settlementDate => Except.ok 42
        | _ => Except.error (FetchErr.keyError "KeyError: INTERVAL_DATETIME"))
      ⟨DateFilter.intervalDatetime, 0⟩ =
      (fun (a : FetchArgs) =>
        match a.dateFilter with
        | DateFilter.settlementDate => Except.ok 42
        | _ => Except.error (FetchErr.keyError "KeyError: INTERVAL_DATETIME"))
      { dateFilter := DateFilter.settlementDate, rest := 0 } :=
  (C8_retry_once_on_interval_keyerror
    (fun a =>
      match a.dateFilter with
      | DateFilter.settlementDate => Except.ok 42
      | _ => Except.error (FetchErr.keyError "KeyError: INTERVAL_DATETIME"))
    ⟨DateFilter.intervalDatetime, 0⟩).2.1
    "KeyError: INTERVAL_DATETIME" rfl (by decide)

end Nemosis

namespace Nemosis

theorem mem_of_mem_dropDupKeys (l : List FRow) (r : FRow)
    (h : r ∈ dropDupKeys l) : r ∈ l := by
  induction l using dropDupKeys.induct with
  | case1 => simp [dropDupKeys] at h
  | case2 a rest ih =>
      rw [dropDupKeys] at h
      rcases List.mem_cons.mp h with rfl | h2
      · exact List.mem_cons_self _ _
      · exact List.mem_cons_of_mem _ (List.mem_of_mem_filter (ih h2))

theorem dropDupKeys_keys_nodup (l : List FRow) :
    ((dropDupKeys l).map FRow.key).Nodup := by
  induction l using dropDupKeys.induct with
  | case1 => simp [dropDupKeys]
  | case2 a rest ih =>
      rw [dropDupKeys, List.map_cons, List.nodup_cons]
      refine ⟨?_, ih⟩
      intro hmem
      obtain ⟨x, hx, hkx⟩ := List.mem_map.mp hmem
      have hxf := mem_of_mem_dropDupKeys _ _ hx
      have := of_decide_eq_true (List.mem_filter.mp hxf).2
      exact this hkx

theorem dropDupKeys_max (l : List FRow) (hp : l.Pairwise frowLe) :
    ∀ r ∈ dropDupKeys l, ∀ s ∈ l, s.key = r.key →
      s.lastchanged ≤ r.lastchanged := by
  induction l using dropDupKeys.induct with
  | case1 => intro r hr; simp [dropDupKeys] at hr
  | case2 a rest ih =>
      intro r hr s hs hk
      rw [dropDupKeys] at hr
      rcases List.mem_cons.mp hr with rfl | hr'
      · rcases List.mem_cons.mp hs with rfl | hs'
        · exact le_refl _
        · have hle : frowLe r s := (List.pairwise_cons.mp hp).1 s hs'
          have hdt : s.dt = r.dt := by
            have := congrArg Prod.fst hk
            simpa [FRow.key] using this
          have hrg : s.region = r.region := by
            have := congrArg (fun p : ℤ × ℕ => p.2) hk
            simpa [FRow.key] using this
          rcases hle with h | ⟨hdteq, h⟩
          · omega
          · rcases h with h | ⟨hreq, h⟩
            · omega
            · exact h
      · have hfp : (rest.filter fun s => decide (s.key ≠ a.key)).Pairwise
            frowLe :=
          ((List.pairwise_cons.mp hp).2).sublist (List.filter_sublist _)
        have hrsub := mem_of_mem_dropDupKeys _ _ hr'
        have hkr : r.key ≠ a.key :=
          of_decide_eq_true (List.mem_filter.mp hrsub).2
        rcases List.mem_cons.mp hs with rfl | hs'
        · exact absurd hk.symm hkr
        · have hsf : s ∈ rest.filter fun x => decide (x.key ≠ a.key) := by
            rw [List.mem_filter]
            refine ⟨hs', decide_eq_true ?_⟩
            intro h
            exact hkr (hk ▸ h)
          exact ih hfp r hr' s hsf hk

/-- **C9.** After the forecast-table deduplication of
`forecast_price_noduplicate.py` — sort ascending on (interval, region)
and descending on `LASTCHANGED`, then
`drop_duplicates(subset=[interval, region], keep="first")` — at most one
row remains per (forecasted-interval, region) pair; every surviving row
comes from the input, and its `LASTCHANGED` is maximal among all input
rows sharing that pair.  A table without a `LASTCHANGED` column is left
unmodified. -/
theorem C9_dedup_keeps_latest (rows : List FRow) :
    ((pdDedup true rows).map FRow.key).Nodup ∧
    (∀ r ∈ pdDedup true rows, r ∈ rows ∧
      ∀ s ∈ rows, s.key = r.key → s.lastchanged ≤ r.lastchanged) ∧
    pdDedup false rows = rows := by
  refine ⟨?_, ?_, rfl⟩
  · rw [pdDedup, if_pos rfl]
    exact dropDupKeys_keys_nodup _
  · intro r hr
    rw [pdDedup, if_pos rfl] at hr
    have hsorted : (List.insertionSort frowLe rows).Pairwise frowLe :=
      List.sorted_insertionSort frowLe rows
    have hperm : List.Perm (List.insertionSort frowLe rows) rows :=
      List.perm_insertionSort frowLe rows
    refine ⟨hperm.mem_iff.mp (mem_of_mem_dropDupKeys _ _ hr), ?_⟩
    intro s hs hk
    exact dropDupKeys_max _ hsorted r hr s (hperm.mem_iff.mpr hs) hk

/-- Witness for C9 at a concrete table with a duplicated
(interval, region) pair: the surviving row dominates the dropped one. -/
theorem C9_dedup_keeps_latest_witness :
    (⟨0, 0, 1, 10⟩ : FRow).lastchanged ≤
      (⟨0, 0, 5, 11⟩ : FRow).lastchanged :=
  ((C9_dedup_keeps_latest [⟨0, 0, 1, 10⟩, ⟨0, 0, 5, 11⟩]).2.1
      ⟨0, 0, 5, 11⟩
      (by
        have hev : pdDedup true [(⟨0, 0, 1, 10⟩ : FRow), ⟨0, 0, 5, 11⟩] =
            [⟨0, 0, 5, 11⟩] := by
          rw [pdDedup, if_pos rfl]
          have h1 : List.insertionSort frowLe
              [(⟨0, 0, 1, 10⟩ : FRow), ⟨0, 0, 5, 11⟩] =
              [⟨0, 0, 5, 11⟩, ⟨0, 0, 1, 10⟩] := by
            norm_num [List.insertionSort, List.orderedInsert, frowLe]
          rw [h1, dropDupKeys]
          rw [show ([(⟨0, 0, 1, 10⟩ : FRow)].filter fun s =>
              decide (s.key ≠ (⟨0, 0, 5, 11⟩ : FRow).key)) = [] from by
            norm_num [FRow.key]]
          rw [dropDupKeys]
        rw [hev]
        exact List.mem_cons_self _ _)).2
    ⟨0, 0, 1, 10⟩ (by decide) (by decide)

end Nemosis

namespace Nemosis

/-- **C10.** In `forecast_error_plot.py`, for every successfully parsed
settlement timestamp (minute granularity, any real date), the midnight
mask `(dt.hour == 0) & (dt.minute == 0)` holds exactly when the
time-of-day is 00:00; such timestamps are shifted back by exactly one
day before the monthly grouping, so the observation is attributed to the
preceding calendar day; all other timestamps are left unchanged. -/
theorem C10_midnight_shifted_back_one_day (t : ℕ) (ht : 1440 ≤ t) :
    (isMidnightMask t = true ↔ t % 1440 = 0) ∧
    (t % 1440 = 0 →
      shiftMidnight t = t - 1440 ∧ dayOf (shiftMidnight t) = dayOf t - 1) ∧
    (t % 1440 ≠ 0 → shiftMidnight t = t) := by
  refine ⟨?_, ?_, ?_⟩
  · simp only [isMidnightMask, Bool.and_eq_true, decide_eq_true_eq,
      hourOf, minuteOf]
    omega
  · intro h0
    have hm : isMidnightMask t = true := by
      simp only [isMidnightMask, Bool.and_eq_true, decide_eq_true_eq,
        hourOf, minuteOf]
      omega
    rw [shiftMidnight, if_pos hm]
    refine ⟨rfl, ?_⟩
    rw [dayOf, dayOf]
    omega
  · intro h0
    have hm : isMidnightMask t = false := by
      rw [isMidnightMask]
      by_cases h1 : hourOf t = 0
      · have h2 : ¬ minuteOf t = 0 := by
          unfold hourOf at h1
          unfold minuteOf
          omega
        simp [h1, h2]
      · simp [h1]
    rw [shiftMidnight]
    simp [hm]

/-- Witness for C10 at the concrete timestamp of midnight on day 2. -/
theorem C10_midnight_shifted_back_one_day_witness :
    (isMidnightMask 2880 = true ↔ 2880 % 1440 = 0) ∧
    (2880 % 1440 = 0 →
      shiftMidnight 2880 = 2880 - 1440 ∧
        dayOf (shiftMidnight 2880) = dayOf 2880 - 1) ∧
    (2880 % 1440 ≠ 0 → shiftMidnight 2880 = 2880) :=
  C10_midnight_shifted_back_one_day 2880 (by norm_num)

end Nemosis
